import Mathlib

/-!
A shallow Lean embedding of the core of the `sim-apps` repository: the group
naming model and companion filters (`filters/group_filters.py`), the member
deduplication engine (`filters/member_filters.py`) and the email candidate
scorer (`filters/email_filters.py`), together with theorems checking the
specification's claims about them.

Python strings are modelled as Lean `String` (a list of characters); the
Unicode NFKC normalisation performed by `unicodedata.normalize("NFKC", ·)`
is the identity on the character range this model covers (ASCII), and
Python's `str.lower` is modelled by ASCII lowercasing, which agrees with it
there.  Python floats are modelled as exact rationals `ℚ`.
-/

namespace SimApps

/-! ## Python string primitives -/

/-- Python `str.lower` on one character, restricted to ASCII: uppercase
letters (codes 65–90) are shifted by 32, everything else is unchanged. -/
def pyCharLower (c : Char) : Char :=
  if 65 ≤ c.toNat ∧ c.toNat ≤ 90 then Char.ofNat (c.toNat + 32) else c

/-- Python `str.lower` (ASCII fragment, see the module comment). -/
def pyLower (s : String) : String :=
  ⟨s.data.map pyCharLower⟩

/-- Python `str.strip()`: remove leading and trailing whitespace. -/
def pyStrip (s : String) : String :=
  ⟨((s.data.dropWhile Char.isWhitespace).reverse.dropWhile Char.isWhitespace).reverse⟩

/-- Python `s.endswith(t)`: `t` equals the last `len(t)` characters of `s`. -/
def pyEndsWith (s t : String) : Bool :=
  t.data.isSuffixOf s.data

/-! ## Data model (`sim_integration/models.py`) -/

/-- Representation of a SIM group (`models.py`, class `Group`). -/
structure Group where
  id : String
  name : String
  display_name : Option String := none
deriving DecidableEq

/-- Representation of a SIM group member (`models.py`, class `Member`). -/
structure Member where
  person_id : String
  group_id : String
  primary_email : Option String := none
  emails : List String := []
  display_name : Option String := none
deriving DecidableEq

/-- Representation of a SIM user record (`models.py`, class `User`). -/
structure User where
  person_id : String
  display_name : Option String := none
  first_name : Option String := none
  last_name : Option String := none
  emails : List String := []
deriving DecidableEq

/-- Result of choosing an email for a member (`email_filters.py`,
class `EmailSelection`). -/
structure EmailSelection where
  selected_email : Option String
  reason : String
  candidates : List String
deriving DecidableEq

/-! ## Group naming model and filters (`filters/group_filters.py`) -/

def SUFFIX_AI_C : String := "-ai-c"

def SUFFIX_AI_H_MCML : String := "-ai-h-mcml"

/-- `_base_project_name`: strip the first matching suffix, checked in the
fixed order `-ai-c` then `-ai-h-mcml`; unchanged when none matches. -/
def _base_project_name (group_name : String) : String :=
  if pyEndsWith group_name SUFFIX_AI_C then
    ⟨group_name.data.take (group_name.data.length - SUFFIX_AI_C.data.length)⟩
  else if pyEndsWith group_name SUFFIX_AI_H_MCML then
    ⟨group_name.data.take (group_name.data.length - SUFFIX_AI_H_MCML.data.length)⟩
  else group_name

/-- `_group_index(groups)[base]`: the full names in `allGroups` whose base
project name is `base` (the `defaultdict(set)` of the source is modelled as
the indexing function itself; membership is membership). -/
def _group_index (allGroups : List Group) (base : String) : List String :=
  (allGroups.map Group.name).filter (fun n => _base_project_name n == base)

/-- `with_ai_c_companion`: keep base project groups whose `-ai-c` companion
exists in the universe (`all_groups`, defaulting to the candidates). -/
def with_ai_c_companion (groups : List Group) (all_groups : Option (List Group)) :
    List Group :=
  let uni := all_groups.getD groups
  groups.filter (fun g =>
    _base_project_name g.name == g.name &&
    (_group_index uni g.name).contains (g.name ++ SUFFIX_AI_C))

/-- `with_ai_c_but_without_ai_h_mcml`: keep base project groups with an
`-ai-c` companion and no `-ai-h-mcml` companion in the universe. -/
def with_ai_c_but_without_ai_h_mcml (groups : List Group)
    (all_groups : Option (List Group)) : List Group :=
  let uni := all_groups.getD groups
  groups.filter (fun g =>
    _base_project_name g.name == g.name &&
    ((_group_index uni g.name).contains (g.name ++ SUFFIX_AI_C) &&
     !(_group_index uni g.name).contains (g.name ++ SUFFIX_AI_H_MCML)))

/-! ## Lemmas about the naming model -/

theorem suffix_of_append (t l₁ l₂ : List Char) (h : t <:+ l₁ ++ l₂)
    (hl : t.length ≤ l₂.length) : t <:+ l₂ := by
  rw [← List.reverse_prefix] at h ⊢
  rw [List.reverse_append] at h
  obtain ⟨q, hq⟩ := h
  have ht : t.reverse = List.take t.reverse.length (l₂.reverse ++ l₁.reverse) := by
    rw [← hq, List.take_left]
  rw [List.take_append_eq_append_take] at ht
  have h0 : t.reverse.length - l₂.reverse.length = 0 := by
    simp only [List.length_reverse]
    omega
  rw [h0, List.take_zero, List.append_nil] at ht
  rw [ht]
  exact List.take_prefix _ _

theorem pyEndsWith_append_self (b s : String) : pyEndsWith (b ++ s) s = true := by
  unfold pyEndsWith
  exact List.isSuffixOf_iff_suffix.mpr (by rw [String.data_append]; exact List.suffix_append _ _)

theorem not_endsWith_mcml_ai_c (b : String) :
    pyEndsWith (b ++ SUFFIX_AI_H_MCML) SUFFIX_AI_C = false := by
  by_contra hcon
  rw [Bool.not_eq_false] at hcon
  unfold pyEndsWith at hcon
  rw [List.isSuffixOf_iff_suffix, String.data_append] at hcon
  have h2 := suffix_of_append _ _ _ hcon (by decide)
  exact absurd h2 (by decide)

theorem base_append_ai_c (b : String) :
    _base_project_name (b ++ SUFFIX_AI_C) = b := by
  unfold _base_project_name
  rw [if_pos (pyEndsWith_append_self b SUFFIX_AI_C)]
  rw [String.data_append]
  have hlen : (b.data ++ SUFFIX_AI_C.data).length - SUFFIX_AI_C.data.length
      = b.data.length := by
    simp [List.length_append]
  rw [hlen, List.take_left]

theorem base_append_mcml (b : String) :
    _base_project_name (b ++ SUFFIX_AI_H_MCML) = b := by
  unfold _base_project_name
  rw [not_endsWith_mcml_ai_c]
  rw [if_neg (by simp), if_pos (pyEndsWith_append_self b SUFFIX_AI_H_MCML)]
  rw [String.data_append]
  have hlen : (b.data ++ SUFFIX_AI_H_MCML.data).length - SUFFIX_AI_H_MCML.data.length
      = b.data.length := by
    simp [List.length_append]
  rw [hlen, List.take_left]

/-- C6: for every group name `n` and registered suffix `s`,
`base_name(base_name(n) ++ s) = base_name(n)`, where `base_name` strips the
first matching suffix in the fixed order `-ai-c` then `-ai-h-mcml` and leaves
a name without a registered suffix unchanged. -/
theorem base_name_strip_roundtrip :
    ∀ n : String,
      _base_project_name (_base_project_name n ++ SUFFIX_AI_C) = _base_project_name n ∧
      _base_project_name (_base_project_name n ++ SUFFIX_AI_H_MCML) = _base_project_name n ∧
      (pyEndsWith n SUFFIX_AI_C = false → pyEndsWith n SUFFIX_AI_H_MCML = false →
        _base_project_name n = n) := by
  intro n
  refine ⟨base_append_ai_c _, base_append_mcml _, ?_⟩
  intro h1 h2
  unfold _base_project_name
  rw [h1, h2]
  simp

/-! ## C3: companion filters -/

def gX : Group := ⟨"1", "alpha", none⟩

def gXc : Group := ⟨"2", "alpha-ai-c", none⟩

def gXh : Group := ⟨"3", "alpha-ai-h-mcml", none⟩

def gY : Group := ⟨"4", "beta", none⟩

def gYc : Group := ⟨"5", "beta-ai-c", none⟩

theorem group_index_contains (U : List Group) (b : String) (s : String)
    (hs : _base_project_name (b ++ s) = b) :
    (_group_index U b).contains (b ++ s) = decide ((b ++ s) ∈ U.map Group.name) := by
  rw [Bool.eq_iff_iff]
  simp [_group_index, List.elem_iff, List.mem_filter, hs]

/-- C3: over any candidate list `C` and universe `U`, `with_ai_c_companion`
keeps exactly the groups of `C` whose name is its own base name and whose
`-ai-c` companion name occurs among the names of `U`;
`with_ai_c_but_without_ai_h_mcml` keeps exactly the base groups whose `-ai-c`
companion exists in `U` and whose `-ai-h-mcml` companion does not; the
universe defaults to `C` itself; and on the universe
`{X, X-ai-c, X-ai-h-mcml, Y, Y-ai-c}` the first filter yields the groups
named `{X, Y}` and the second yields `{Y}`. -/
theorem companion_filters_spec :
    (∀ C U : List Group,
      with_ai_c_companion C (some U) = C.filter (fun g =>
        decide (g.name = _base_project_name g.name ∧
          g.name ++ SUFFIX_AI_C ∈ U.map Group.name))) ∧
    (∀ C U : List Group,
      with_ai_c_but_without_ai_h_mcml C (some U) = C.filter (fun g =>
        decide (g.name = _base_project_name g.name ∧
          g.name ++ SUFFIX_AI_C ∈ U.map Group.name ∧
          g.name ++ SUFFIX_AI_H_MCML ∉ U.map Group.name))) ∧
    (∀ C : List Group,
      with_ai_c_companion C none = with_ai_c_companion C (some C) ∧
      with_ai_c_but_without_ai_h_mcml C none =
        with_ai_c_but_without_ai_h_mcml C (some C)) ∧
    (with_ai_c_companion [gX, gXc, gXh, gY, gYc] none = [gX, gY] ∧
     with_ai_c_but_without_ai_h_mcml [gX, gXc, gXh, gY, gYc] none = [gY]) := by
  refine ⟨?_, ?_, ?_, by decide, by decide⟩
  · intro C U
    unfold with_ai_c_companion
    apply List.filter_congr
    intro g _
    simp only [Option.getD_some]
    rw [group_index_contains U g.name SUFFIX_AI_C (base_append_ai_c g.name)]
    rw [Bool.eq_iff_iff]
    simp only [Bool.and_eq_true, beq_iff_eq, decide_eq_true_eq]
    exact ⟨fun ⟨a, b⟩ => ⟨a.symm, b⟩, fun ⟨a, b⟩ => ⟨a.symm, b⟩⟩
  · intro C U
    unfold with_ai_c_but_without_ai_h_mcml
    apply List.filter_congr
    intro g _
    simp only [Option.getD_some]
    rw [group_index_contains U g.name SUFFIX_AI_C (base_append_ai_c g.name)]
    rw [group_index_contains U g.name SUFFIX_AI_H_MCML (base_append_mcml g.name)]
    rw [Bool.eq_iff_iff]
    simp only [Bool.and_eq_true, Bool.not_eq_eq_eq_not, Bool.not_true, decide_eq_false_iff_not,
      beq_iff_eq, decide_eq_true_eq]
    exact ⟨fun ⟨a, b, c⟩ => ⟨a.symm, b, c⟩, fun ⟨a, b, c⟩ => ⟨a.symm, b, c⟩⟩
  · intro C
    constructor <;> rfl

/-! ## Member deduplication engine (`filters/member_filters.py`) -/

/-- The `by-best-email` key of the loop body of `_filter`:
`selection.selected_email or member.person_id` (Python `or`: a missing or
empty selected email falls back to the person id). -/
def byBestKey (selector : Member → EmailSelection) (member : Member) : String :=
  match (selector member).selected_email with
  | some e => if e = "" then member.person_id else e
  | none => member.person_id

/-- One `key` computation of the loop body of `_filter` in
`deduplicate_members`: `by-id` uses `person_id`, `by-primary-email` the
lowercased primary email (empty when missing), and the remaining strategy
(`by-best-email`) asks the `email_selector` callback, raising a `ValueError`
when it is not callable. -/
def dedupKey (normalized : String) (email_selector : Option (Member → EmailSelection))
    (member : Member) : Except String String :=
  if normalized = "by-id" then .ok member.person_id
  else if normalized = "by-primary-email" then .ok (pyLower (member.primary_email.getD ""))
  else
    match email_selector with
    | none => .error "email_selector callable required for by-best-email"
    | some selector => .ok (byBestKey selector member)

/-- The `for member in members` loop of `_filter`: `seen` collects the
non-empty keys already taken, `result` the retained members in order. -/
def dedupLoop (normalized : String) (email_selector : Option (Member → EmailSelection)) :
    List Member → List String → List Member → Except String (List Member)
  | [], _, result => .ok result
  | member :: rest, seen, result =>
    match dedupKey normalized email_selector member with
    | .error e => .error e
    | .ok key =>
      if key ∈ seen then dedupLoop normalized email_selector rest seen result
      else dedupLoop normalized email_selector rest
        (if key = "" then seen else seen ++ [key]) (result ++ [member])

/-- The inner `_filter` closure of `deduplicate_members`. -/
def _filter (normalized : String) (email_selector : Option (Member → EmailSelection))
    (members : List Member) : Except String (List Member) :=
  if normalized = "none" then .ok members
  else dedupLoop normalized email_selector members [] []

/-- `deduplicate_members(strategy)`: lowercase the strategy tag, raise a
`ValueError` at construction time for an unsupported tag, and otherwise
return the member filter closed over the normalized tag. -/
def deduplicate_members (strategy : String) :
    Except String (Option (Member → EmailSelection) → List Member →
      Except String (List Member)) :=
  let normalized := pyLower strategy
  if normalized ∈ (["none", "by-id", "by-primary-email", "by-best-email"] : List String) then
    .ok (_filter normalized)
  else
    .error ("Unsupported deduplication strategy: " ++ strategy)

/-! ## Pure form of the deduplication loop and its properties -/

/-- The deduplication loop once every key computation succeeds: drop a member
whose key was already taken, record a non-empty key, keep the member. -/
def dedupPure (key : Member → String) : List Member → List String → List Member
  | [], _ => []
  | m :: rest, seen =>
    if key m ∈ seen then dedupPure key rest seen
    else m :: dedupPure key rest (if key m = "" then seen else seen ++ [key m])

/-- First occurrence per non-empty key wins, members with an empty key are
always retained: keep the head, drop every later member with the same
non-empty key, recurse. -/
def keepFirstByKey (key : Member → String) : List Member → List Member
  | [] => []
  | m :: rest =>
    m :: (if key m = "" then keepFirstByKey key rest
          else keepFirstByKey key (rest.filter (fun m2 => decide (key m2 ≠ key m))))
termination_by l => l.length
decreasing_by
  · simp only [List.length_cons]
    omega
  · simp only [List.length_cons]
    exact Nat.lt_succ_of_le (List.length_filter_le _ _)

theorem dedupLoop_ok (normalized : String) (sel : Option (Member → EmailSelection))
    (key : Member → String) (hkey : ∀ m, dedupKey normalized sel m = .ok (key m)) :
    ∀ (ms : List Member) (seen : List String) (acc : List Member),
      dedupLoop normalized sel ms seen acc = .ok (acc ++ dedupPure key ms seen) := by
  intro ms
  induction ms with
  | nil =>
    intro seen acc
    simp [dedupLoop, dedupPure]
  | cons m rest ih =>
    intro seen acc
    rw [dedupLoop, hkey m]
    show (if key m ∈ seen then dedupLoop normalized sel rest seen acc
      else dedupLoop normalized sel rest (if key m = "" then seen else seen ++ [key m])
        (acc ++ [m])) = _
    by_cases h : key m ∈ seen
    · rw [if_pos h, ih seen acc, dedupPure, if_pos h]
    · rw [if_neg h, ih _ (acc ++ [m]), dedupPure, if_neg h]
      simp

theorem dedupPure_sublist (key : Member → String) :
    ∀ (ms : List Member) (seen : List String), (dedupPure key ms seen).Sublist ms := by
  intro ms
  induction ms with
  | nil =>
    intro seen
    simp [dedupPure]
  | cons m rest ih =>
    intro seen
    rw [dedupPure]
    by_cases h : key m ∈ seen
    · rw [if_pos h]
      exact (ih seen).cons m
    · rw [if_neg h]
      exact (ih _).cons₂ m

theorem dedupPure_filter_empty (key : Member → String) :
    ∀ (ms : List Member) (seen : List String), "" ∉ seen →
      (dedupPure key ms seen).filter (fun m => decide (key m = "")) =
        ms.filter (fun m => decide (key m = "")) := by
  intro ms
  induction ms with
  | nil =>
    intro seen _
    simp [dedupPure]
  | cons m rest ih =>
    intro seen hseen
    rw [dedupPure]
    by_cases h : key m ∈ seen
    · have hk : ¬ key m = "" := fun he => hseen (he ▸ h)
      rw [if_pos h, ih seen hseen, List.filter_cons_of_neg (by simp [hk])]
    · rw [if_neg h]
      by_cases hk : key m = ""
      · rw [if_pos hk, List.filter_cons_of_pos (by simp [hk]),
          List.filter_cons_of_pos (by simp [hk]), ih seen hseen]
      · rw [if_neg hk, List.filter_cons_of_neg (by simp [hk]),
          List.filter_cons_of_neg (by simp [hk])]
        apply ih
        intro hmem
        rcases List.mem_append.mp hmem with h1 | h1
        · exact hseen h1
        · simp at h1
          exact hk h1.symm

theorem dedupPure_eq_keepFirst (key : Member → String) :
    ∀ (ms : List Member) (seen : List String), "" ∉ seen →
      dedupPure key ms seen =
        keepFirstByKey key (ms.filter (fun m => decide (key m ∉ seen))) := by
  intro ms
  induction ms with
  | nil =>
    intro seen _
    simp [dedupPure, keepFirstByKey]
  | cons m rest ih =>
    intro seen hseen
    rw [dedupPure]
    by_cases h : key m ∈ seen
    · rw [if_pos h, List.filter_cons_of_neg (by simp [h]), ih seen hseen]
    · rw [if_neg h, List.filter_cons_of_pos (by simp [h]), keepFirstByKey]
      by_cases hk : key m = ""
      · rw [if_pos hk, if_pos hk, ih seen hseen]
      · rw [if_neg hk, if_neg hk]
        congr 1
        have hseen2 : "" ∉ seen ++ [key m] := by
          intro hmem
          rcases List.mem_append.mp hmem with h1 | h1
          · exact hseen h1
          · simp at h1
            exact hk h1.symm
        rw [ih (seen ++ [key m]) hseen2, List.filter_filter]
        congr 1
        apply List.filter_congr
        intro x _
        rw [Bool.eq_iff_iff]
        simp only [Bool.and_eq_true, decide_eq_true_eq, List.mem_append,
          List.mem_singleton, not_or]
        constructor
        · rintro ⟨h1, h2⟩
          exact ⟨h2, h1⟩
        · rintro ⟨h1, h2⟩
          exact ⟨h2, h1⟩

theorem filter_strategy_spec (normalized : String) (hn : normalized ≠ "none")
    (sel : Option (Member → EmailSelection)) (key : Member → String)
    (hkey : ∀ m, dedupKey normalized sel m = .ok (key m)) (ms : List Member) :
    ∃ out, _filter normalized sel ms = .ok out ∧ out.Sublist ms ∧
      out.filter (fun m => decide (key m = "")) =
        ms.filter (fun m => decide (key m = "")) := by
  refine ⟨dedupPure key ms [], ?_, dedupPure_sublist key ms [],
    dedupPure_filter_empty key ms [] (by simp)⟩
  rw [_filter, if_neg hn, dedupLoop_ok normalized sel key hkey ms [] [], List.nil_append]

/-! ## C4, C5, C7, C10: the deduplication claims -/

/-- C4: an unsupported strategy tag (one whose lowercased form is not
`none`, `by-id`, `by-primary-email` or `by-best-email`) makes
`deduplicate_members` fail with a `ValueError` already at construction time,
before any member is seen; and the `by-best-email` filter without a callable
`email_selector` fails exactly when the first member's key is computed: it
errors on every non-empty member sequence and returns successfully on the
empty one. -/
theorem dedup_config_errors :
    (∀ s : String,
      pyLower s ∉ (["none", "by-id", "by-primary-email", "by-best-email"] : List String) →
      deduplicate_members s = .error ("Unsupported deduplication strategy: " ++ s)) ∧
    (∀ (m : Member) (rest : List Member),
      _filter "by-best-email" none (m :: rest) =
        .error "email_selector callable required for by-best-email") ∧
    _filter "by-best-email" none ([] : List Member) = .ok [] := by
  refine ⟨?_, fun m rest => rfl, rfl⟩
  intro s hs
  simp only [deduplicate_members]
  rw [if_neg hs]

/-- C4 witness: the theorem applied at the concrete unsupported tag
`"frobnicate"`. -/
theorem dedup_config_errors_w :
    deduplicate_members "frobnicate" =
      .error "Unsupported deduplication strategy: frobnicate" :=
  dedup_config_errors.1 "frobnicate" (by decide)

def mId1a : Member := ⟨"1", "g1", none, [], none⟩

def mId1b : Member := ⟨"1", "g2", none, [], none⟩

def mId2 : Member := ⟨"2", "g3", none, [], none⟩

def mEmptyA : Member := ⟨"", "g1", none, [], none⟩

def mEmptyB : Member := ⟨"", "g2", none, [], none⟩

/-- C5 counterexample: on two distinct members that share the empty
`person_id`, the `by-id` filter keeps both, so it does not keep only the
first occurrence of each `person_id`. -/
theorem by_id_empty_ids_cex :
    _filter "by-id" none [mEmptyA, mEmptyB] = .ok [mEmptyA, mEmptyB] ∧
    mEmptyB.person_id = mEmptyA.person_id ∧ mEmptyA ≠ mEmptyB ∧
    ([mEmptyA, mEmptyB] : List Member) ≠ [mEmptyA] := by
  exact ⟨rfl, rfl, by decide, by decide⟩

/-- C5 (amended): the `none` strategy returns the input exactly; `by-id`
keeps the first occurrence of each non-empty `person_id` in input order and
retains every member whose `person_id` is empty; on
`[M(id=1), M(id=1), M(id=2)]` it returns the 2 records `[1, 2]` in
first-seen order. -/
theorem dedup_none_and_by_id :
    (∀ (sel : Option (Member → EmailSelection)) (ms : List Member),
      _filter "none" sel ms = .ok ms) ∧
    (∀ (sel : Option (Member → EmailSelection)) (ms : List Member),
      _filter "by-id" sel ms = .ok (keepFirstByKey (fun m => m.person_id) ms)) ∧
    _filter "by-id" none [mId1a, mId1b, mId2] = .ok [mId1a, mId2] := by
  refine ⟨fun sel ms => rfl, ?_, rfl⟩
  intro sel ms
  rw [_filter, if_neg (by decide),
    dedupLoop_ok "by-id" sel (fun m => m.person_id) (fun m => rfl) ms [] [],
    List.nil_append, dedupPure_eq_keepFirst _ ms [] (by simp)]
  have hf : ms.filter (fun m => decide (m.person_id ∉ ([] : List String))) = ms :=
    List.filter_eq_self.mpr (fun a _ => by simp)
  rw [hf]

/-- C7: for each key-producing strategy (`by-id`, `by-primary-email` with the
lowercased primary email and empty key for a missing one, and
`by-best-email` with a selector), key computation always succeeds, and every
member whose computed key is the empty string is retained unconditionally:
the empty-key members of the output are exactly the empty-key members of the
input, so empty keys never collide. -/
theorem dedup_empty_keys_retained :
    ∀ (ms : List Member) (sel : Option (Member → EmailSelection)),
      (∃ out, _filter "by-id" sel ms = .ok out ∧ out.Sublist ms ∧
        out.filter (fun m => decide (m.person_id = "")) =
          ms.filter (fun m => decide (m.person_id = ""))) ∧
      (∃ out, _filter "by-primary-email" sel ms = .ok out ∧ out.Sublist ms ∧
        out.filter (fun m => decide (pyLower (m.primary_email.getD "") = "")) =
          ms.filter (fun m => decide (pyLower (m.primary_email.getD "") = ""))) ∧
      (∀ selector : Member → EmailSelection, ∃ out,
        _filter "by-best-email" (some selector) ms = .ok out ∧ out.Sublist ms ∧
        out.filter (fun m => decide (byBestKey selector m = "")) =
          ms.filter (fun m => decide (byBestKey selector m = ""))) := by
  intro ms sel
  refine ⟨?_, ?_, ?_⟩
  · exact filter_strategy_spec "by-id" (by decide) sel _ (fun m => rfl) ms
  · exact filter_strategy_spec "by-primary-email" (by decide) sel _ (fun m => rfl) ms
  · intro selector
    exact filter_strategy_spec "by-best-email" (by decide) (some selector) _ (fun m => rfl) ms

theorem pyCharLower_idem (c : Char) : pyCharLower (pyCharLower c) = pyCharLower c := by
  by_cases h : 65 ≤ c.toNat ∧ c.toNat ≤ 90
  · have hv : (c.toNat + 32).isValidChar := Or.inl (by omega)
    have ht : (Char.ofNat (c.toNat + 32)).toNat = c.toNat + 32 := by
      rw [Char.ofNat, dif_pos hv]
      rfl
    simp only [pyCharLower, if_pos h]
    rw [if_neg (by rw [ht]; omega)]
  · simp only [pyCharLower, if_neg h]

theorem pyLower_idem (s : String) : pyLower (pyLower s) = pyLower s := by
  show String.mk ((s.data.map pyCharLower).map pyCharLower) = String.mk (s.data.map pyCharLower)
  rw [List.map_map]
  congr 1
  apply List.map_congr_left
  intro a _
  exact pyCharLower_idem a

/-- C10: strategy tags are treated case-insensitively: construction succeeds
exactly when the lowercased tag is one of `none`, `by-id`,
`by-primary-email`, `by-best-email`, and a successfully built filter is the
very filter built from the lowercased tag (so `"BY-ID"` behaves exactly like
`"by-id"`). -/
theorem deduplicate_members_case_insensitive :
    ∀ s : String,
      ((∃ f, deduplicate_members s = .ok f) ↔
        pyLower s ∈ (["none", "by-id", "by-primary-email", "by-best-email"] : List String)) ∧
      (∀ f, deduplicate_members s = .ok f → deduplicate_members (pyLower s) = .ok f) := by
  intro s
  by_cases h : pyLower s ∈ (["none", "by-id", "by-primary-email", "by-best-email"] : List String)
  · constructor
    · exact ⟨fun _ => h, fun _ => ⟨_filter (pyLower s), by
        simp only [deduplicate_members]
        rw [if_pos h]⟩⟩
    · intro f hf
      simp only [deduplicate_members] at hf ⊢
      rw [if_pos h] at hf
      rw [pyLower_idem s, if_pos h]
      exact hf
  · constructor
    · constructor
      · rintro ⟨f, hf⟩
        simp only [deduplicate_members] at hf
        rw [if_neg h] at hf
        exact absurd hf (by simp)
      · intro hc
        exact absurd hc h
    · intro f hf
      simp only [deduplicate_members] at hf
      rw [if_neg h] at hf
      exact absurd hf (by simp)

/-! ## Email candidate scorer (`filters/email_filters.py`) -/

/-- `_normalize`: `unicodedata.normalize("NFKC", value).lower()`.  NFKC is
the identity on the modelled (ASCII) character range, so only the
lowercasing remains. -/
def _normalize (value : String) : String := pyLower value

/-- Python `str.split()`: split on runs of whitespace, no empty tokens. -/
def pySplitWs : List Char → List (List Char)
  | [] => []
  | c :: cs =>
    if c.isWhitespace then pySplitWs cs
    else (c :: cs.takeWhile (fun d => !d.isWhitespace)) ::
      pySplitWs (cs.dropWhile (fun d => !d.isWhitespace))
termination_by l => l.length
decreasing_by
  · simp only [List.length_cons]
    omega
  · simp only [List.length_cons]
    exact Nat.lt_succ_of_le (List.IsSuffix.length_le (List.dropWhile_suffix _))

/-- The token list of `_expected_local_part`:
`_normalize(s).replace("-", " ").split()` (the source's trailing
`if token` filter is vacuous because `split()` yields no empty tokens). -/
def nameTokens (s : String) : List String :=
  (pySplitWs ((_normalize s).data.map (fun c => if c = '-' then ' ' else c))).map
    (fun t => ⟨t⟩)

/-- `f"{tokens[0]}.{tokens[-1]}"` when at least two tokens exist. -/
def firstLastLocal (tokens : List String) : Option String :=
  if 2 ≤ tokens.length then some (tokens.headD "" ++ "." ++ tokens.getLastD "") else none

/-- The first branch of `_expected_local_part`: a user with truthy first and
last names. -/
def expectedFromUserNames (user : Option User) : Option String :=
  match user with
  | some u =>
    match u.first_name, u.last_name with
    | some f, some l =>
      if f ≠ "" ∧ l ≠ "" then some (_normalize f ++ "." ++ _normalize l) else none
    | _, _ => none
  | none => none

/-- The display-name token heuristic of `_expected_local_part`. -/
def expectedFromDisplay (dn : Option String) : Option String :=
  match dn with
  | some s => if s ≠ "" then firstLastLocal (nameTokens s) else none
  | none => none

/-- `_expected_local_part`: user first/last names, else the member's display
name tokens, else the user's display name tokens, else nothing. -/
def _expected_local_part (member : Member) (user : Option User) : Option String :=
  (expectedFromUserNames user).orElse (fun _ =>
    (expectedFromDisplay member.display_name).orElse (fun _ =>
      expectedFromDisplay (match user with | some u => u.display_name | none => none)))

/-- The inner loop of `_candidate_emails` over one email collection:
strip each entry and append it when non-empty and not already present. -/
def addCandidates : List String → List String → List String
  | [], emails => emails
  | email :: rest, emails =>
    let normalized := pyStrip email
    addCandidates rest
      (if normalized ≠ "" ∧ normalized ∉ emails then emails ++ [normalized] else emails)

/-- `_candidate_emails`: member emails, then user emails (when a user is
present), stripped and de-duplicated in first-seen order, then the member's
`primary_email` appended when truthy and not already present. -/
def _candidate_emails (member : Member) (user : Option User) : List String :=
  let emails := addCandidates member.emails []
  let emails2 := addCandidates (match user with | some u => u.emails | none => []) emails
  match member.primary_email with
  | some p => if p ≠ "" ∧ p ∉ emails2 then emails2 ++ [p] else emails2
  | none => emails2

/-- `_local_part`: `email.split("@", 1)[0]`. -/
def _local_part (email : String) : String :=
  ⟨email.data.takeWhile (fun c => c ≠ '@')⟩

/-- `_domain_part`: everything after the first `@`, or `""` without one. -/
def _domain_part (email : String) : String :=
  if '@' ∈ email.data then ⟨(email.data.dropWhile (fun c => c ≠ '@')).tail⟩ else ""

/-! ## difflib's SequenceMatcher (stdlib dependency of `_ratio`)

First the junk-free greedy core: the longest matching block of two windows
(earliest in `a`, then in `b`, among blocks of maximal size) and the total
matched size obtained by recursing left and right of it.  This is exactly
`SequenceMatcher(..., autojunk=False)` and is the specification's
"pure greedy longest-matching-block" measure.  The code's actual
`SequenceMatcher(None, a, b)` keeps the default `autojunk=True` heuristic;
it is modelled further below (`findLongestMatchP`, `matchTotalPF`) and
coincides with the junk-free core whenever `len(b) < 200`
(`matchTotalPF_false_eq`). -/

/-- Length of the common run at the start of two lists. -/
def commonPrefixLen : List Char → List Char → Nat
  | a :: as, b :: bs => if a = b then commonPrefixLen as bs + 1 else 0
  | _, _ => 0

/-- The slice `l[i:hi]`. -/
def windowAt (l : List Char) (i hi : Nat) : List Char := (l.drop i).take (hi - i)

/-- Length of the matching run of `a[i:ahi]` against `b[j:bhi]` starting at
`(i, j)`. -/
def matchLenAt (a b : List Char) (ahi bhi i j : Nat) : Nat :=
  commonPrefixLen (windowAt a i ahi) (windowAt b j bhi)

/-- One comparison step of `find_longest_match`: a strictly longer match
replaces the best one (so the earliest longest block, first by start in `a`
then in `b`, wins). -/
def flmStep (a b : List Char) (ahi bhi : Nat) (best : Nat × Nat × Nat) (i j : Nat) :
    Nat × Nat × Nat :=
  if best.2.2 < matchLenAt a b ahi bhi i j then (i, j, matchLenAt a b ahi bhi i j) else best

/-- `find_longest_match(alo, ahi, blo, bhi)`: the longest matching block
`(i, j, size)` of the two windows, earliest in `a` then in `b` among blocks
of maximal size; `(alo, blo, 0)` when the windows share nothing. -/
def findLongestMatch (a b : List Char) (alo ahi blo bhi : Nat) : Nat × Nat × Nat :=
  (List.range' alo (ahi - alo)).foldl (fun best i =>
    (List.range' blo (bhi - blo)).foldl (fun b2 j => flmStep a b ahi bhi b2 i j) best)
    (alo, blo, 0)

theorem commonPrefixLen_le_left :
    ∀ l₁ l₂ : List Char, commonPrefixLen l₁ l₂ ≤ l₁.length
  | [], _ => by simp [commonPrefixLen]
  | _ :: _, [] => by simp [commonPrefixLen]
  | a :: as, b :: bs => by
    rw [commonPrefixLen]
    by_cases h : a = b
    · rw [if_pos h]
      simpa using commonPrefixLen_le_left as bs
    · rw [if_neg h]
      simp

theorem commonPrefixLen_le_right :
    ∀ l₁ l₂ : List Char, commonPrefixLen l₁ l₂ ≤ l₂.length
  | [], _ => by simp [commonPrefixLen]
  | _ :: _, [] => by simp [commonPrefixLen]
  | a :: as, b :: bs => by
    rw [commonPrefixLen]
    by_cases h : a = b
    · rw [if_pos h]
      simpa using commonPrefixLen_le_right as bs
    · rw [if_neg h]
      simp

theorem matchLenAt_le_left (a b : List Char) (ahi bhi i j : Nat) :
    matchLenAt a b ahi bhi i j ≤ ahi - i := by
  unfold matchLenAt windowAt
  calc commonPrefixLen ((a.drop i).take (ahi - i)) ((b.drop j).take (bhi - j))
      ≤ ((a.drop i).take (ahi - i)).length := commonPrefixLen_le_left _ _
    _ ≤ ahi - i := by
        rw [List.length_take]
        exact min_le_left _ _

theorem matchLenAt_le_right (a b : List Char) (ahi bhi i j : Nat) :
    matchLenAt a b ahi bhi i j ≤ bhi - j := by
  unfold matchLenAt windowAt
  calc commonPrefixLen ((a.drop i).take (ahi - i)) ((b.drop j).take (bhi - j))
      ≤ ((b.drop j).take (bhi - j)).length := commonPrefixLen_le_right _ _
    _ ≤ bhi - j := by
        rw [List.length_take]
        exact min_le_left _ _

theorem findLongestMatch_good_proj (a b : List Char) (alo ahi blo bhi : Nat) :
    (findLongestMatch a b alo ahi blo bhi).2.2 ≠ 0 →
      alo ≤ (findLongestMatch a b alo ahi blo bhi).1 ∧
      (findLongestMatch a b alo ahi blo bhi).1 +
        (findLongestMatch a b alo ahi blo bhi).2.2 ≤ ahi ∧
      blo ≤ (findLongestMatch a b alo ahi blo bhi).2.1 ∧
      (findLongestMatch a b alo ahi blo bhi).2.1 +
        (findLongestMatch a b alo ahi blo bhi).2.2 ≤ bhi := by
  unfold findLongestMatch
  refine List.foldlRecOn (motive := fun t : Nat × Nat × Nat =>
    t.2.2 ≠ 0 → alo ≤ t.1 ∧ t.1 + t.2.2 ≤ ahi ∧ blo ≤ t.2.1 ∧ t.2.1 + t.2.2 ≤ bhi)
    _ _ _ ?_ ?_
  · intro hk
    exact absurd rfl hk
  · intro t ht i hi
    refine List.foldlRecOn (motive := fun t : Nat × Nat × Nat =>
      t.2.2 ≠ 0 → alo ≤ t.1 ∧ t.1 + t.2.2 ≤ ahi ∧ blo ≤ t.2.1 ∧ t.2.1 + t.2.2 ≤ bhi)
      _ _ _ ht ?_
    intro t2 ht2 j hj
    unfold flmStep
    by_cases hlt : t2.2.2 < matchLenAt a b ahi bhi i j
    · rw [if_pos hlt]
      show matchLenAt a b ahi bhi i j ≠ 0 →
        alo ≤ i ∧ i + matchLenAt a b ahi bhi i j ≤ ahi ∧
        blo ≤ j ∧ j + matchLenAt a b ahi bhi i j ≤ bhi
      intro hk
      have h1 := List.mem_range'_1.mp hi
      have h2 := List.mem_range'_1.mp hj
      have hla := matchLenAt_le_left a b ahi bhi i j
      have hlb := matchLenAt_le_right a b ahi bhi i j
      omega
    · rw [if_neg hlt]
      exact ht2

theorem findLongestMatch_good (a b : List Char) (alo ahi blo bhi i j k : Nat)
    (hm : findLongestMatch a b alo ahi blo bhi = (i, j, k)) (hk : k ≠ 0) :
    alo ≤ i ∧ i + k ≤ ahi ∧ blo ≤ j ∧ j + k ≤ bhi := by
  have h := findLongestMatch_good_proj a b alo ahi blo bhi
  rw [hm] at h
  exact h hk

/-- Total size of the matching blocks of `a[alo:ahi]` and `b[blo:bhi]`:
take the longest block, recurse on the parts to its left and right
(`get_matching_blocks`, summed as `ratio` does). -/
def matchTotal (a b : List Char) (alo ahi blo bhi : Nat) : Nat :=
  match hm : findLongestMatch a b alo ahi blo bhi with
  | (i, j, k) =>
    if hk : k = 0 then 0
    else
      matchTotal a b alo i blo j + (k + matchTotal a b (i + k) ahi (j + k) bhi)
termination_by (ahi - alo) + (bhi - blo)
decreasing_by
  all_goals
    obtain ⟨h1, h2, h3, h4⟩ := findLongestMatch_good a b alo ahi blo bhi i j k hm hk
    omega

theorem matchTotal_eq (a b : List Char) (alo ahi blo bhi i j k : Nat)
    (hm : findLongestMatch a b alo ahi blo bhi = (i, j, k)) :
    matchTotal a b alo ahi blo bhi =
      if k = 0 then 0
      else matchTotal a b alo i blo j + (k + matchTotal a b (i + k) ahi (j + k) bhi) := by
  rw [matchTotal]
  split
  next i2 j2 k2 heq =>
    rw [hm] at heq
    obtain ⟨h1, h2, h3⟩ : i = i2 ∧ j = j2 ∧ k = k2 := by
      simpa [Prod.ext_iff] using heq
    subst h1
    subst h2
    subst h3
    by_cases hk : k = 0
    · rw [dif_pos hk, if_pos hk]
    · rw [dif_neg hk, if_neg hk]

/-! ### The best block of `find_longest_match` is maximal: no in-window pair
starts a longer run, and the best block itself is a full run.  These facts
make the extension loops of the real `find_longest_match` no-ops in the
junk-free case (`findLongestMatchP_false_eq` below). -/

theorem flm_inner_mono (a b : List Char) (ahi bhi i : Nat) :
    ∀ (js : List Nat) (t : Nat × Nat × Nat),
      t.2.2 ≤ (js.foldl (fun b2 j => flmStep a b ahi bhi b2 i j) t).2.2 := by
  intro js
  induction js with
  | nil =>
    intro t
    exact le_refl _
  | cons j0 js ih =>
    intro t
    rw [List.foldl_cons]
    refine le_trans ?_ (ih (flmStep a b ahi bhi t i j0))
    unfold flmStep
    by_cases hlt : t.2.2 < matchLenAt a b ahi bhi i j0
    · rw [if_pos hlt]
      exact le_of_lt hlt
    · rw [if_neg hlt]

theorem flm_inner_ge (a b : List Char) (ahi bhi i : Nat) :
    ∀ (js : List Nat) (t : Nat × Nat × Nat) (j : Nat), j ∈ js →
      matchLenAt a b ahi bhi i j ≤
        (js.foldl (fun b2 j2 => flmStep a b ahi bhi b2 i j2) t).2.2 := by
  intro js
  induction js with
  | nil =>
    intro t j hj
    simp at hj
  | cons j0 js ih =>
    intro t j hj
    rw [List.foldl_cons]
    rcases List.mem_cons.mp hj with rfl | hj2
    · refine le_trans ?_ (flm_inner_mono a b ahi bhi i js _)
      unfold flmStep
      by_cases hlt : t.2.2 < matchLenAt a b ahi bhi i j
      · rw [if_pos hlt]
      · rw [if_neg hlt]
        omega
    · exact ih _ j hj2

theorem flm_outer_mono (a b : List Char) (ahi bhi blo nB : Nat) :
    ∀ (il : List Nat) (t : Nat × Nat × Nat),
      t.2.2 ≤ (il.foldl (fun best i => (List.range' blo nB).foldl
        (fun b2 j => flmStep a b ahi bhi b2 i j) best) t).2.2 := by
  intro il
  induction il with
  | nil =>
    intro t
    exact le_refl _
  | cons i0 il ih =>
    intro t
    rw [List.foldl_cons]
    exact le_trans (flm_inner_mono a b ahi bhi i0 _ t) (ih _)

theorem flm_outer_ge (a b : List Char) (ahi bhi blo nB : Nat) :
    ∀ (il : List Nat) (t : Nat × Nat × Nat) (i j : Nat), i ∈ il → j ∈ List.range' blo nB →
      matchLenAt a b ahi bhi i j ≤ (il.foldl (fun best i2 => (List.range' blo nB).foldl
        (fun b2 j2 => flmStep a b ahi bhi b2 i2 j2) best) t).2.2 := by
  intro il
  induction il with
  | nil =>
    intro t i j hi _
    simp at hi
  | cons i0 il ih =>
    intro t i j hi hj
    rw [List.foldl_cons]
    rcases List.mem_cons.mp hi with rfl | hi2
    · exact le_trans (flm_inner_ge a b ahi bhi i _ t j hj)
        (flm_outer_mono a b ahi bhi blo nB il _)
    · exact ih _ i j hi2 hj

theorem flm_ge (a b : List Char) (alo ahi blo bhi i j : Nat)
    (hi1 : alo ≤ i) (hi2 : i < ahi) (hj1 : blo ≤ j) (hj2 : j < bhi) :
    matchLenAt a b ahi bhi i j ≤ (findLongestMatch a b alo ahi blo bhi).2.2 := by
  unfold findLongestMatch
  exact flm_outer_ge a b ahi bhi blo (bhi - blo) (List.range' alo (ahi - alo)) (alo, blo, 0)
    i j (List.mem_range'_1.mpr ⟨hi1, by omega⟩) (List.mem_range'_1.mpr ⟨hj1, by omega⟩)

theorem flm_run_or_init (a b : List Char) (alo ahi blo bhi : Nat) :
    findLongestMatch a b alo ahi blo bhi = (alo, blo, 0) ∨
    ((findLongestMatch a b alo ahi blo bhi).2.2 =
        matchLenAt a b ahi bhi (findLongestMatch a b alo ahi blo bhi).1
          (findLongestMatch a b alo ahi blo bhi).2.1 ∧
      (findLongestMatch a b alo ahi blo bhi).2.2 ≠ 0) := by
  unfold findLongestMatch
  refine List.foldlRecOn (motive := fun t : Nat × Nat × Nat =>
    t = (alo, blo, 0) ∨ (t.2.2 = matchLenAt a b ahi bhi t.1 t.2.1 ∧ t.2.2 ≠ 0)) _ _ _ ?_ ?_
  · exact Or.inl rfl
  · intro t ht i _
    refine List.foldlRecOn (motive := fun t : Nat × Nat × Nat =>
      t = (alo, blo, 0) ∨ (t.2.2 = matchLenAt a b ahi bhi t.1 t.2.1 ∧ t.2.2 ≠ 0)) _ _ _ ht ?_
    intro t2 ht2 j _
    unfold flmStep
    by_cases hlt : t2.2.2 < matchLenAt a b ahi bhi i j
    · rw [if_pos hlt]
      refine Or.inr ⟨rfl, ?_⟩
      show matchLenAt a b ahi bhi i j ≠ 0
      omega
    · rw [if_neg hlt]
      exact ht2

/-! ### Windows and common runs, pointwise -/

theorem windowAt_length (l : List Char) (i hi : Nat) :
    (windowAt l i hi).length = min (hi - i) (l.length - i) := by
  unfold windowAt
  rw [List.length_take, List.length_drop]

theorem windowAt_cons (l : List Char) (i hi : Nat) (h1 : i < hi) (h2 : i < l.length) :
    windowAt l i hi = l.getD i ' ' :: windowAt l (i + 1) hi := by
  unfold windowAt
  rw [List.drop_eq_getElem_cons h2, show hi - i = (hi - (i + 1)) + 1 by omega,
    List.take_succ_cons, List.getD_eq_getElem l ' ' h2]

theorem windowAt_getD (l : List Char) (i hi k : Nat) (h1 : k < hi - i) (h2 : i + k < l.length) :
    (windowAt l i hi).getD k ' ' = l.getD (i + k) ' ' := by
  unfold windowAt
  rw [List.getD_eq_getElem?_getD, List.getD_eq_getElem?_getD, List.getElem?_take, if_pos h1,
    List.getElem?_drop]

theorem commonPrefixLen_cons (x : Char) (u v : List Char) :
    commonPrefixLen (x :: u) (x :: v) = commonPrefixLen u v + 1 := by
  rw [commonPrefixLen, if_pos rfl]

theorem commonPrefixLen_stop :
    ∀ (u v : List Char) (k : Nat), commonPrefixLen u v = k →
      k < u.length → k < v.length → ¬ u.getD k ' ' = v.getD k ' '
  | [], _, k => by
    intro _ hk1 _
    simp at hk1
  | _ :: _, [], _ => by
    intro _ _ hk2
    simp at hk2
  | x :: u, y :: v, k => by
    intro h hk1 hk2
    by_cases hxy : x = y
    · subst hxy
      rw [commonPrefixLen_cons] at h
      cases k with
      | zero => omega
      | succ k2 =>
        rw [List.getD_cons_succ, List.getD_cons_succ]
        exact commonPrefixLen_stop u v k2 (by omega)
          (by simp only [List.length_cons] at hk1; omega)
          (by simp only [List.length_cons] at hk2; omega)
    · rw [commonPrefixLen, if_neg hxy] at h
      obtain rfl : k = 0 := h.symm
      rw [List.getD_cons_zero, List.getD_cons_zero]
      exact hxy

theorem matchLenAt_pred (a b : List Char) (ahi bhi i j : Nat)
    (hi0 : 0 < i) (hj0 : 0 < j) (hi1 : i - 1 < ahi) (hi2 : i - 1 < a.length)
    (hj1 : j - 1 < bhi) (hj2 : j - 1 < b.length)
    (hc : a.getD (i - 1) ' ' = b.getD (j - 1) ' ') :
    matchLenAt a b ahi bhi (i - 1) (j - 1) = matchLenAt a b ahi bhi i j + 1 := by
  unfold matchLenAt
  rw [windowAt_cons a (i - 1) ahi hi1 hi2, windowAt_cons b (j - 1) bhi hj1 hj2,
    show (i - 1) + 1 = i by omega, show (j - 1) + 1 = j by omega, hc]
  exact commonPrefixLen_cons _ _ _

theorem matchLenAt_pos (a b : List Char) (ahi bhi i j : Nat)
    (hi1 : i < ahi) (hi2 : i < a.length) (hj1 : j < bhi) (hj2 : j < b.length)
    (hc : a.getD i ' ' = b.getD j ' ') : 1 ≤ matchLenAt a b ahi bhi i j := by
  unfold matchLenAt
  rw [windowAt_cons a i ahi hi1 hi2, windowAt_cons b j bhi hj1 hj2, hc, commonPrefixLen_cons]
  omega

theorem flm_no_left_extension (a b : List Char) (alo ahi blo bhi : Nat)
    (ha : ahi ≤ a.length) (hb : bhi ≤ b.length) :
    ¬(alo < (findLongestMatch a b alo ahi blo bhi).1 ∧
      blo < (findLongestMatch a b alo ahi blo bhi).2.1 ∧
      a.getD ((findLongestMatch a b alo ahi blo bhi).1 - 1) ' ' =
        b.getD ((findLongestMatch a b alo ahi blo bhi).2.1 - 1) ' ') := by
  rintro ⟨hc1, hc2, hc3⟩
  rcases flm_run_or_init a b alo ahi blo bhi with hinit | ⟨hrun, hk0⟩
  · rw [hinit] at hc1
    simp at hc1
  · obtain ⟨g1, g2, g3, g4⟩ := findLongestMatch_good_proj a b alo ahi blo bhi hk0
    have hml := matchLenAt_pred a b ahi bhi (findLongestMatch a b alo ahi blo bhi).1
      (findLongestMatch a b alo ahi blo bhi).2.1 (by omega) (by omega) (by omega) (by omega)
      (by omega) (by omega) hc3
    have hge := flm_ge a b alo ahi blo bhi ((findLongestMatch a b alo ahi blo bhi).1 - 1)
      ((findLongestMatch a b alo ahi blo bhi).2.1 - 1) (by omega) (by omega) (by omega) (by omega)
    rw [hml] at hge
    omega

theorem flm_no_right_extension (a b : List Char) (alo ahi blo bhi : Nat)
    (ha : ahi ≤ a.length) (hb : bhi ≤ b.length) :
    ¬((findLongestMatch a b alo ahi blo bhi).1 + (findLongestMatch a b alo ahi blo bhi).2.2 < ahi ∧
      (findLongestMatch a b alo ahi blo bhi).2.1 + (findLongestMatch a b alo ahi blo bhi).2.2 < bhi ∧
      a.getD ((findLongestMatch a b alo ahi blo bhi).1 +
        (findLongestMatch a b alo ahi blo bhi).2.2) ' ' =
        b.getD ((findLongestMatch a b alo ahi blo bhi).2.1 +
          (findLongestMatch a b alo ahi blo bhi).2.2) ' ') := by
  rintro ⟨hc1, hc2, hc3⟩
  rcases flm_run_or_init a b alo ahi blo bhi with hinit | ⟨hrun, hk0⟩
  · have e1 : (findLongestMatch a b alo ahi blo bhi).1 = alo := by rw [hinit]
    have e2 : (findLongestMatch a b alo ahi blo bhi).2.1 = blo := by rw [hinit]
    have e3 : (findLongestMatch a b alo ahi blo bhi).2.2 = 0 := by rw [hinit]
    rw [e1, e3] at hc1
    rw [e2, e3] at hc2
    rw [e1, e2, e3] at hc3
    have hpos := matchLenAt_pos a b ahi bhi alo blo (by omega) (by omega) (by omega) (by omega)
      (by simpa using hc3)
    have hge := flm_ge a b alo ahi blo bhi alo blo (le_refl _) (by omega) (le_refl _) (by omega)
    omega
  · obtain ⟨g1, g2, g3, g4⟩ := findLongestMatch_good_proj a b alo ahi blo bhi hk0
    have hcpl : commonPrefixLen (windowAt a (findLongestMatch a b alo ahi blo bhi).1 ahi)
        (windowAt b (findLongestMatch a b alo ahi blo bhi).2.1 bhi) =
        (findLongestMatch a b alo ahi blo bhi).2.2 := by
      rw [hrun]
      rfl
    have hstop := commonPrefixLen_stop _ _ _ hcpl
      (by rw [windowAt_length, lt_min_iff]; exact ⟨by omega, by omega⟩)
      (by rw [windowAt_length, lt_min_iff]; exact ⟨by omega, by omega⟩)
    apply hstop
    rw [windowAt_getD a _ ahi _ (by omega) (by omega), windowAt_getD b _ bhi _ (by omega) (by omega)]
    exact hc3

/-! ## difflib's autojunk heuristic (`SequenceMatcher.__chain_b`) and the
junk-aware `find_longest_match` -/

/-- `__chain_b`'s autojunk purge (the code's `SequenceMatcher(None, a, b)`
keeps the defaults `isjunk=None`, `autojunk=True`): when `len(b) >= 200`, a
character occupying more than `len(b) // 100 + 1` positions of `b` is
"popular" and deleted from the match index `b2j`, so it can neither seed nor
continue a matching run in the dynamic programming pass. -/
def isPopular (b : List Char) (c : Char) : Bool :=
  decide (200 ≤ b.length) && decide (b.length / 100 + 1 < b.count c)

/-- The matching run of two windows against a junk predicate: every position
must carry equal characters whose `b`-side character is not junked (only
positions present in the purged `b2j` index chain in `j2len`). -/
def commonRunP (junk : Char → Bool) : List Char → List Char → Nat
  | x :: xs, y :: ys =>
    if x = y ∧ junk y = false then commonRunP junk xs ys + 1 else 0
  | _, _ => 0

def matchLenAtP (junk : Char → Bool) (a b : List Char) (ahi bhi i j : Nat) : Nat :=
  commonRunP junk (windowAt a i ahi) (windowAt b j bhi)

def flmStepP (junk : Char → Bool) (a b : List Char) (ahi bhi : Nat)
    (best : Nat × Nat × Nat) (i j : Nat) : Nat × Nat × Nat :=
  if best.2.2 < matchLenAtP junk a b ahi bhi i j then (i, j, matchLenAtP junk a b ahi bhi i j)
  else best

/-- The inner `for j` scan of the dynamic-programming pass (the best triple
is destructured at every step so that concrete inputs evaluate without
building a deep thunk tower). -/
def flmLoopJ (junk : Char → Bool) (a b : List Char) (ahi bhi i : Nat) :
    List Nat → Nat × Nat × Nat → Nat × Nat × Nat
  | [], best => best
  | j :: js, (bi, bj, bk) => flmLoopJ junk a b ahi bhi i js (flmStepP junk a b ahi bhi (bi, bj, bk) i j)

/-- The outer `for i` scan of the dynamic-programming pass. -/
def flmLoopI (junk : Char → Bool) (a b : List Char) (ahi bhi blo nB : Nat) :
    List Nat → Nat × Nat × Nat → Nat × Nat × Nat
  | [], best => best
  | i :: il, (bi, bj, bk) =>
    flmLoopI junk a b ahi bhi blo nB il
      (flmLoopJ junk a b ahi bhi i (List.range' blo nB) (bi, bj, bk))

/-- The `j2len` dynamic-programming pass of `find_longest_match` over the
purged index: the earliest maximal junk-free matching run, first by start in
`a`, then by start in `b` (the scan updates only on strictly longer runs, in
end-position order, which picks exactly that block). -/
def flmDP (junk : Char → Bool) (a b : List Char) (alo ahi blo bhi : Nat) : Nat × Nat × Nat :=
  flmLoopI junk a b ahi bhi blo (bhi - blo) (List.range' alo (ahi - alo)) (alo, blo, 0)

theorem flmLoopJ_eq_foldl (junk : Char → Bool) (a b : List Char) (ahi bhi i : Nat) :
    ∀ (js : List Nat) (acc : Nat × Nat × Nat),
      flmLoopJ junk a b ahi bhi i js acc =
        js.foldl (fun b2 j => flmStepP junk a b ahi bhi b2 i j) acc := by
  intro js
  induction js with
  | nil =>
    intro acc
    rfl
  | cons j js ih =>
    intro acc
    obtain ⟨bi, bj, bk⟩ := acc
    rw [flmLoopJ, List.foldl_cons, ih]

theorem flmLoopI_eq_foldl (junk : Char → Bool) (a b : List Char) (ahi bhi blo nB : Nat) :
    ∀ (il : List Nat) (acc : Nat × Nat × Nat),
      flmLoopI junk a b ahi bhi blo nB il acc =
        il.foldl (fun best i => (List.range' blo nB).foldl
          (fun b2 j => flmStepP junk a b ahi bhi b2 i j) best) acc := by
  intro il
  induction il with
  | nil =>
    intro acc
    rfl
  | cons i il ih =>
    intro acc
    obtain ⟨bi, bj, bk⟩ := acc
    rw [flmLoopI, List.foldl_cons, ih, flmLoopJ_eq_foldl]

theorem flmDP_eq_foldl (junk : Char → Bool) (a b : List Char) (alo ahi blo bhi : Nat) :
    flmDP junk a b alo ahi blo bhi =
      (List.range' alo (ahi - alo)).foldl (fun best i =>
        (List.range' blo (bhi - blo)).foldl (fun b2 j => flmStepP junk a b ahi bhi b2 i j) best)
        (alo, blo, 0) := by
  rw [flmDP, flmLoopI_eq_foldl]

/-- The two left-extension `while` loops of `find_longest_match`, fused:
with `isjunk=None` the b-junk set is empty, so the non-junk guard of the
first loop is vacuously true and the final junk-only loops never fire.  The
loop steps at most `i - alo` times (each step needs `alo < i` and
decrements `i`), so with that fuel running out coincides with the loop
guard failing; `getD` merely totalises the indexing, which the guards keep
in range at every call site. -/
def extendLeftF (a b : List Char) (alo blo : Nat) : Nat → Nat → Nat → Nat → Nat × Nat × Nat
  | 0, i, j, k => (i, j, k)
  | fuel + 1, i, j, k =>
    if alo < i ∧ blo < j ∧ a.getD (i - 1) ' ' = b.getD (j - 1) ' ' then
      extendLeftF a b alo blo fuel (i - 1) (j - 1) (k + 1)
    else (i, j, k)

/-- The right-extension `while` loop of `find_longest_match` (see
`extendLeftF` for the junk guards).  Each step needs `j + k < bhi` and
increments `k`, so fuel `bhi - (j + k)` is exact. -/
def extendRightF (a b : List Char) (ahi bhi i j : Nat) : Nat → Nat → Nat
  | 0, k => k
  | fuel + 1, k =>
    if i + k < ahi ∧ j + k < bhi ∧ a.getD (i + k) ' ' = b.getD (j + k) ' ' then
      extendRightF a b ahi bhi i j fuel (k + 1)
    else k

/-- The extension loops applied to the dynamic-programming result. -/
def flmExtend (a b : List Char) (alo ahi blo bhi : Nat) (t : Nat × Nat × Nat) :
    Nat × Nat × Nat :=
  match extendLeftF a b alo blo (t.1 - alo) t.1 t.2.1 t.2.2 with
  | (i, j, k) => (i, j, extendRightF a b ahi bhi i j (bhi - (j + k)) k)

/-- `find_longest_match(alo, ahi, blo, bhi)` with a junk predicate: the
dynamic-programming pass over the purged index, then the extension loops. -/
def findLongestMatchP (junk : Char → Bool) (a b : List Char) (alo ahi blo bhi : Nat) :
    Nat × Nat × Nat :=
  flmExtend a b alo ahi blo bhi (flmDP junk a b alo ahi blo bhi)

/-- `get_matching_blocks` summed as `ratio` sums it, against a junk
predicate.  Fueled structural recursion so that concrete inputs evaluate in
the kernel; the fuel strictly bounds the window measure
`(ahi - alo) + (bhi - blo)`, which shrinks at every recursive call
(`findLongestMatchP_good`), so `measure + 1` fuel never runs out
(`matchTotalPF_fuel_congr`). -/
def matchTotalPF (junk : Char → Bool) :
    Nat → List Char → List Char → Nat → Nat → Nat → Nat → Nat
  | 0, _, _, _, _, _, _ => 0
  | fuel + 1, a, b, alo, ahi, blo, bhi =>
    match findLongestMatchP junk a b alo ahi blo bhi with
    | (i, j, k) =>
      if k = 0 then 0
      else matchTotalPF junk fuel a b alo i blo j +
        (k + matchTotalPF junk fuel a b (i + k) ahi (j + k) bhi)

theorem commonRunP_le_left (junk : Char → Bool) :
    ∀ l₁ l₂ : List Char, commonRunP junk l₁ l₂ ≤ l₁.length
  | [], _ => by simp [commonRunP]
  | _ :: _, [] => by simp [commonRunP]
  | x :: xs, y :: ys => by
    rw [commonRunP]
    by_cases h : x = y ∧ junk y = false
    · rw [if_pos h]
      simpa using commonRunP_le_left junk xs ys
    · rw [if_neg h]
      simp

theorem commonRunP_le_right (junk : Char → Bool) :
    ∀ l₁ l₂ : List Char, commonRunP junk l₁ l₂ ≤ l₂.length
  | [], _ => by simp [commonRunP]
  | _ :: _, [] => by simp [commonRunP]
  | x :: xs, y :: ys => by
    rw [commonRunP]
    by_cases h : x = y ∧ junk y = false
    · rw [if_pos h]
      simpa using commonRunP_le_right junk xs ys
    · rw [if_neg h]
      simp

theorem matchLenAtP_le_left (junk : Char → Bool) (a b : List Char) (ahi bhi i j : Nat) :
    matchLenAtP junk a b ahi bhi i j ≤ ahi - i := by
  unfold matchLenAtP windowAt
  calc commonRunP junk ((a.drop i).take (ahi - i)) ((b.drop j).take (bhi - j))
      ≤ ((a.drop i).take (ahi - i)).length := commonRunP_le_left _ _ _
    _ ≤ ahi - i := by
        rw [List.length_take]
        exact min_le_left _ _

theorem matchLenAtP_le_right (junk : Char → Bool) (a b : List Char) (ahi bhi i j : Nat) :
    matchLenAtP junk a b ahi bhi i j ≤ bhi - j := by
  unfold matchLenAtP windowAt
  calc commonRunP junk ((a.drop i).take (ahi - i)) ((b.drop j).take (bhi - j))
      ≤ ((b.drop j).take (bhi - j)).length := commonRunP_le_right _ _ _
    _ ≤ bhi - j := by
        rw [List.length_take]
        exact min_le_left _ _

theorem flmDP_inv (junk : Char → Bool) (a b : List Char) (alo ahi blo bhi : Nat) :
    alo ≤ (flmDP junk a b alo ahi blo bhi).1 ∧
    blo ≤ (flmDP junk a b alo ahi blo bhi).2.1 ∧
    ((flmDP junk a b alo ahi blo bhi).2.2 ≠ 0 →
      (flmDP junk a b alo ahi blo bhi).1 + (flmDP junk a b alo ahi blo bhi).2.2 ≤ ahi ∧
      (flmDP junk a b alo ahi blo bhi).2.1 + (flmDP junk a b alo ahi blo bhi).2.2 ≤ bhi) ∧
    ((flmDP junk a b alo ahi blo bhi).2.2 = 0 →
      (flmDP junk a b alo ahi blo bhi).1 = alo ∧ (flmDP junk a b alo ahi blo bhi).2.1 = blo) := by
  rw [flmDP_eq_foldl]
  refine List.foldlRecOn (motive := fun t : Nat × Nat × Nat =>
    alo ≤ t.1 ∧ blo ≤ t.2.1 ∧ (t.2.2 ≠ 0 → t.1 + t.2.2 ≤ ahi ∧ t.2.1 + t.2.2 ≤ bhi) ∧
      (t.2.2 = 0 → t.1 = alo ∧ t.2.1 = blo)) _ _ _ ?_ ?_
  · exact ⟨le_refl _, le_refl _, fun hk => absurd rfl hk, fun _ => ⟨rfl, rfl⟩⟩
  · intro t ht i hi
    refine List.foldlRecOn (motive := fun t : Nat × Nat × Nat =>
      alo ≤ t.1 ∧ blo ≤ t.2.1 ∧ (t.2.2 ≠ 0 → t.1 + t.2.2 ≤ ahi ∧ t.2.1 + t.2.2 ≤ bhi) ∧
        (t.2.2 = 0 → t.1 = alo ∧ t.2.1 = blo)) _ _ _ ht ?_
    intro t2 ht2 j hj
    unfold flmStepP
    by_cases hlt : t2.2.2 < matchLenAtP junk a b ahi bhi i j
    · rw [if_pos hlt]
      have h1 := List.mem_range'_1.mp hi
      have h2 := List.mem_range'_1.mp hj
      have hla := matchLenAtP_le_left junk a b ahi bhi i j
      have hlb := matchLenAtP_le_right junk a b ahi bhi i j
      refine ⟨h1.1, h2.1, fun hk => ?_, fun hk => ?_⟩
      · have hk2 : matchLenAtP junk a b ahi bhi i j ≠ 0 := hk
        constructor
        · show i + matchLenAtP junk a b ahi bhi i j ≤ ahi
          omega
        · show j + matchLenAtP junk a b ahi bhi i j ≤ bhi
          omega
      · exact absurd (show matchLenAtP junk a b ahi bhi i j = 0 from hk) (by omega)
    · rw [if_neg hlt]
      exact ht2

theorem extendLeftF_inv (a b : List Char) (alo blo ahi bhi : Nat) :
    ∀ (fuel i j k : Nat), alo ≤ i → blo ≤ j →
      (k ≠ 0 → i + k ≤ ahi ∧ j + k ≤ bhi) → (k = 0 → i = alo ∧ j = blo) →
      ∀ i2 j2 k2, extendLeftF a b alo blo fuel i j k = (i2, j2, k2) →
        alo ≤ i2 ∧ blo ≤ j2 ∧ (k2 ≠ 0 → i2 + k2 ≤ ahi ∧ j2 + k2 ≤ bhi) ∧
          (k2 = 0 → i2 = alo ∧ j2 = blo) := by
  intro fuel
  induction fuel with
  | zero =>
    intro i j k h1 h2 h3 h4 i2 j2 k2 hm
    obtain ⟨rfl, rfl, rfl⟩ : i = i2 ∧ j = j2 ∧ k = k2 := by
      simpa [extendLeftF, Prod.ext_iff] using hm
    exact ⟨h1, h2, h3, h4⟩
  | succ f ih =>
    intro i j k h1 h2 h3 h4 i2 j2 k2 hm
    rw [extendLeftF] at hm
    by_cases hc : alo < i ∧ blo < j ∧ a.getD (i - 1) ' ' = b.getD (j - 1) ' '
    · rw [if_pos hc] at hm
      have hk0 : k ≠ 0 := by
        intro h0
        obtain ⟨hia, _⟩ := h4 h0
        omega
      obtain ⟨hb1, hb2⟩ := h3 hk0
      exact ih (i - 1) (j - 1) (k + 1) (by omega) (by omega)
        (fun _ => ⟨by omega, by omega⟩) (fun h0 => absurd h0 (by omega)) i2 j2 k2 hm
    · rw [if_neg hc] at hm
      obtain ⟨rfl, rfl, rfl⟩ : i = i2 ∧ j = j2 ∧ k = k2 := by
        simpa [Prod.ext_iff] using hm
      exact ⟨h1, h2, h3, h4⟩

theorem extendRightF_inv (a b : List Char) (ahi bhi i j : Nat) :
    ∀ (fuel k : Nat), (k ≠ 0 → i + k ≤ ahi ∧ j + k ≤ bhi) →
      (extendRightF a b ahi bhi i j fuel k ≠ 0 →
        i + extendRightF a b ahi bhi i j fuel k ≤ ahi ∧
        j + extendRightF a b ahi bhi i j fuel k ≤ bhi) := by
  intro fuel
  induction fuel with
  | zero =>
    intro k h
    rw [extendRightF]
    exact h
  | succ f ih =>
    intro k h
    rw [extendRightF]
    by_cases hc : i + k < ahi ∧ j + k < bhi ∧ a.getD (i + k) ' ' = b.getD (j + k) ' '
    · rw [if_pos hc]
      exact ih (k + 1) (fun _ => ⟨by omega, by omega⟩)
    · rw [if_neg hc]
      exact h

theorem findLongestMatchP_good (junk : Char → Bool) (a b : List Char)
    (alo ahi blo bhi i j k : Nat)
    (hm : findLongestMatchP junk a b alo ahi blo bhi = (i, j, k)) (hk : k ≠ 0) :
    alo ≤ i ∧ i + k ≤ ahi ∧ blo ≤ j ∧ j + k ≤ bhi := by
  obtain ⟨d1, d2, d3, d4⟩ := flmDP_inv junk a b alo ahi blo bhi
  unfold findLongestMatchP flmExtend at hm
  rcases hL : extendLeftF a b alo blo ((flmDP junk a b alo ahi blo bhi).1 - alo)
      (flmDP junk a b alo ahi blo bhi).1 (flmDP junk a b alo ahi blo bhi).2.1
      (flmDP junk a b alo ahi blo bhi).2.2 with ⟨iL, jL, kL⟩
  rw [hL] at hm
  obtain ⟨l1, l2, l3, _⟩ := extendLeftF_inv a b alo blo ahi bhi _ _ _ _ d1 d2 d3 d4 iL jL kL hL
  obtain ⟨rfl, rfl, hkE⟩ : iL = i ∧ jL = j ∧
      extendRightF a b ahi bhi iL jL (bhi - (jL + kL)) kL = k := by
    simpa [Prod.ext_iff] using hm
  have hR := extendRightF_inv a b ahi bhi iL jL (bhi - (jL + kL)) kL l3
  rw [hkE] at hR
  obtain ⟨r1, r2⟩ := hR hk
  exact ⟨l1, r1, l2, r2⟩

/-- difflib's `_calculate_ratio`: `2.0 * matches / length` for a non-zero
combined length, `1.0` otherwise. -/
def _calculate_ratio (matched le_n : Nat) : ℚ :=
  if le_n ≠ 0 then 2 * (matched : ℚ) / (le_n : ℚ) else 1

/-- `SequenceMatcher(None, a, b).ratio()`: total matching-block size under
the default autojunk heuristic, scaled by the combined length. -/
def sequenceMatcherQ (a b : List Char) : ℚ :=
  _calculate_ratio (matchTotalPF (isPopular b) (a.length + b.length + 1) a b 0 a.length 0 b.length)
    (a.length + b.length)

/-- `_ratio`: `0.0` when either string is empty, else the SequenceMatcher
ratio. -/
def _ratio (a b : String) : ℚ :=
  if a = "" ∨ b = "" then 0 else sequenceMatcherQ a.data b.data

theorem matchTotalPF_fuel_congr (junk : Char → Bool) :
    ∀ (f1 f2 : Nat) (a b : List Char) (alo ahi blo bhi : Nat),
      (ahi - alo) + (bhi - blo) < f1 → (ahi - alo) + (bhi - blo) < f2 →
      matchTotalPF junk f1 a b alo ahi blo bhi = matchTotalPF junk f2 a b alo ahi blo bhi := by
  intro f1
  induction f1 with
  | zero =>
    intro f2 a b alo ahi blo bhi h1 _
    omega
  | succ f ih =>
    intro f2 a b alo ahi blo bhi h1 h2
    cases f2 with
    | zero => omega
    | succ f2b =>
      rw [matchTotalPF, matchTotalPF]
      rcases hm : findLongestMatchP junk a b alo ahi blo bhi with ⟨i, j, k⟩
      dsimp only
      by_cases hk : k = 0
      · rw [if_pos hk, if_pos hk]
      · rw [if_neg hk, if_neg hk]
        obtain ⟨g1, g2, g3, g4⟩ := findLongestMatchP_good junk a b alo ahi blo bhi i j k hm hk
        rw [ih f2b a b alo i blo j (by omega) (by omega),
          ih f2b a b (i + k) ahi (j + k) bhi (by omega) (by omega)]

theorem commonRunP_false :
    ∀ l₁ l₂ : List Char, commonRunP (fun _ => false) l₁ l₂ = commonPrefixLen l₁ l₂
  | [], _ => rfl
  | _ :: _, [] => rfl
  | x :: xs, y :: ys => by
    rw [commonRunP, commonPrefixLen]
    by_cases h : x = y
    · rw [if_pos ⟨h, rfl⟩, if_pos h, commonRunP_false xs ys]
    · rw [if_neg (fun hc => h hc.1), if_neg h]

theorem extendLeftF_id (a b : List Char) (alo blo fuel i j k : Nat)
    (h : ¬(alo < i ∧ blo < j ∧ a.getD (i - 1) ' ' = b.getD (j - 1) ' ')) :
    extendLeftF a b alo blo fuel i j k = (i, j, k) := by
  cases fuel with
  | zero => rfl
  | succ f => rw [extendLeftF, if_neg h]

theorem extendRightF_id (a b : List Char) (ahi bhi i j fuel k : Nat)
    (h : ¬(i + k < ahi ∧ j + k < bhi ∧ a.getD (i + k) ' ' = b.getD (j + k) ' ')) :
    extendRightF a b ahi bhi i j fuel k = k := by
  cases fuel with
  | zero => rfl
  | succ f => rw [extendRightF, if_neg h]

/-- Without junked characters, `find_longest_match` is the junk-free greedy
search: the dynamic programming finds the same block and the extension loops
cannot fire, because the best block is already maximal. -/
theorem findLongestMatchP_false_eq (a b : List Char) (alo ahi blo bhi : Nat)
    (ha : ahi ≤ a.length) (hb : bhi ≤ b.length) :
    findLongestMatchP (fun _ => false) a b alo ahi blo bhi =
      findLongestMatch a b alo ahi blo bhi := by
  have hdp : flmDP (fun _ => false) a b alo ahi blo bhi = findLongestMatch a b alo ahi blo bhi := by
    rw [flmDP_eq_foldl]
    unfold findLongestMatch
    congr 1
    funext best i
    congr 1
    funext b2 j
    unfold flmStepP flmStep matchLenAtP matchLenAt
    rw [commonRunP_false]
  unfold findLongestMatchP
  rw [hdp]
  unfold flmExtend
  rw [extendLeftF_id a b alo blo _ _ _ _ (flm_no_left_extension a b alo ahi blo bhi ha hb)]
  dsimp only
  rw [extendRightF_id a b ahi bhi _ _ _ _ (flm_no_right_extension a b alo ahi blo bhi ha hb)]

/-- Below the autojunk threshold the junk-aware matching total is the pure
greedy one, for every fuel above the window measure. -/
theorem matchTotalPF_false_eq :
    ∀ (fuel : Nat) (a b : List Char) (alo ahi blo bhi : Nat),
      (ahi - alo) + (bhi - blo) < fuel → ahi ≤ a.length → bhi ≤ b.length →
      matchTotalPF (fun _ => false) fuel a b alo ahi blo bhi =
        matchTotal a b alo ahi blo bhi := by
  intro fuel
  induction fuel with
  | zero =>
    intro a b alo ahi blo bhi h1 _ _
    omega
  | succ f ih =>
    intro a b alo ahi blo bhi h1 ha hb
    rw [matchTotalPF, findLongestMatchP_false_eq a b alo ahi blo bhi ha hb]
    rcases hm : findLongestMatch a b alo ahi blo bhi with ⟨i, j, k⟩
    dsimp only
    rw [matchTotal_eq a b alo ahi blo bhi i j k hm]
    by_cases hk : k = 0
    · rw [if_pos hk, if_pos hk]
    · rw [if_neg hk, if_neg hk]
      obtain ⟨g1, g2, g3, g4⟩ := findLongestMatch_good a b alo ahi blo bhi i j k hm hk
      rw [ih a b alo i blo j (by omega) (by omega) (by omega),
        ih a b (i + k) ahi (j + k) bhi (by omega) ha hb]

/-- C9 (amended): `_ratio` returns 0 when either string is empty; and
whenever `b` is below difflib's autojunk threshold of 200 characters it
otherwise equals `2·M / T`, where `M` is the total length of the matching
contiguous blocks found by the pure greedy longest-matching-block algorithm
(`matchTotal`) and `T` the combined length of both strings.  (At 200 or
more characters of `b` the default autojunk heuristic additionally purges
popular characters, and the ratio can differ: `ratio_autojunk_cex`.) -/
theorem ratio_spec_below_autojunk :
    ∀ a b : String,
      (a = "" ∨ b = "" → _ratio a b = 0) ∧
      (b.data.length < 200 →
        _ratio a b =
          if a = "" ∨ b = "" then 0
          else 2 * (matchTotal a.data b.data 0 a.data.length 0 b.data.length : ℚ) /
            ((a.data.length + b.data.length : ℕ) : ℚ)) := by
  intro a b
  constructor
  · intro h
    unfold _ratio
    rw [if_pos h]
  · intro hlen
    unfold _ratio
    by_cases h : a = "" ∨ b = ""
    · rw [if_pos h, if_pos h]
    · rw [if_neg h, if_neg h]
      unfold sequenceMatcherQ
      have hjunk : isPopular b.data = fun _ => false := by
        funext c
        unfold isPopular
        rw [decide_eq_false (by omega : ¬ 200 ≤ b.data.length), Bool.false_and]
      rw [hjunk, matchTotalPF_false_eq (a.data.length + b.data.length + 1) a.data b.data 0
        a.data.length 0 b.data.length (by omega) (le_refl _) (le_refl _)]
      unfold _calculate_ratio
      have hane : a.data ≠ [] := by
        intro hd
        exact h (Or.inl (by cases a; simp_all))
      rw [if_pos (show (a.data.length + b.data.length) ≠ 0 by
        have h0 : a.data.length ≠ 0 := fun hz => hane (List.length_eq_zero.mp hz)
        omega)]

def aEx : String := "ccccab"

def bEx : String := ⟨'a' :: 'b' :: List.replicate 198 'c'⟩

set_option maxRecDepth 10000 in
/-- C9 counterexample: on `a = "ccccab"` and the 200-character
`b = "ab" ++ "c" * 198`, autojunk purges the popular `'c'` (198 > 3
occurrences), so the code's ratio is `2·2/206 = 2/103` while the pure
greedy matching-block formula gives `2·4/206 = 4/103`. -/
theorem ratio_autojunk_cex :
    bEx.data.length = 200 ∧
    _ratio aEx bEx = 2/103 ∧
    2 * (matchTotal aEx.data bEx.data 0 aEx.data.length 0 bEx.data.length : ℚ) /
      ((aEx.data.length + bEx.data.length : ℕ) : ℚ) = 4/103 ∧
    _ratio aEx bEx ≠
      2 * (matchTotal aEx.data bEx.data 0 aEx.data.length 0 bEx.data.length : ℚ) /
        ((aEx.data.length + bEx.data.length : ℕ) : ℚ) := by
  have hla : aEx.data.length = 6 := rfl
  have hlb : bEx.data.length = 200 := by decide
  have hpureN : matchTotalPF (fun _ => false) (aEx.data.length + bEx.data.length + 1)
      aEx.data bEx.data 0 aEx.data.length 0 bEx.data.length = 4 := by decide
  have hpure : matchTotal aEx.data bEx.data 0 aEx.data.length 0 bEx.data.length = 4 := by
    rw [← matchTotalPF_false_eq (aEx.data.length + bEx.data.length + 1) aEx.data bEx.data 0
      aEx.data.length 0 bEx.data.length (by omega) (le_refl _) (le_refl _)]
    exact hpureN
  have hM : matchTotalPF (isPopular bEx.data) (aEx.data.length + bEx.data.length + 1)
      aEx.data bEx.data 0 aEx.data.length 0 bEx.data.length = 2 := by decide
  have haj : _ratio aEx bEx = 2/103 := by
    unfold _ratio
    rw [if_neg (by decide : ¬ (aEx = "" ∨ bEx = ""))]
    unfold sequenceMatcherQ
    rw [hM]
    unfold _calculate_ratio
    rw [if_pos (by rw [hla, hlb]; omega : aEx.data.length + bEx.data.length ≠ 0), hla, hlb]
    norm_num
  have h3 : 2 * (matchTotal aEx.data bEx.data 0 aEx.data.length 0 bEx.data.length : ℚ) /
      ((aEx.data.length + bEx.data.length : ℕ) : ℚ) = 4/103 := by
    rw [hpure, hla, hlb]
    norm_num
  refine ⟨hlb, haj, h3, ?_⟩
  rw [haj, h3]
  norm_num

/-! ## C8: candidate gathering -/

/-- Candidate gathering exactly as claim C8 words it: the member's emails,
then the user's, de-duplicated in first-seen order, with `primary_email`
appended last when not already present (no stripping, no emptiness
conditions). -/
def candidateEmailsSpec (member : Member) (user : Option User) : List String :=
  let all := member.emails ++ (match user with | some u => u.emails | none => [])
  let deduped := all.foldl (fun acc e => if e ∈ acc then acc else acc ++ [e]) []
  match member.primary_email with
  | some p => if p ∈ deduped then deduped else deduped ++ [p]
  | none => deduped

/-- Candidate gathering as amended: each member/user email is first stripped
of surrounding whitespace and dropped when empty after stripping; the
stripped entries are de-duplicated in first-seen order, member entries
before user-only entries; `primary_email` is appended last (unstripped) when
non-empty and not already present. -/
def candidateEmailsAmended (member : Member) (user : Option User) : List String :=
  let all := ((member.emails ++ (match user with | some u => u.emails | none => [])).map
    pyStrip).filter (fun e => decide (e ≠ ""))
  let deduped := all.foldl (fun acc e => if e ∈ acc then acc else acc ++ [e]) []
  match member.primary_email with
  | some p => if p ≠ "" ∧ p ∉ deduped then deduped ++ [p] else deduped
  | none => deduped

theorem addCandidates_eq (collection : List String) :
    ∀ acc, addCandidates collection acc =
      ((collection.map pyStrip).filter (fun e => decide (e ≠ ""))).foldl
        (fun a e => if e ∈ a then a else a ++ [e]) acc := by
  induction collection with
  | nil =>
    intro acc
    simp [addCandidates]
  | cons email rest ih =>
    intro acc
    rw [addCandidates]
    by_cases h0 : pyStrip email = ""
    · rw [if_neg (by simp [h0]), List.map_cons, List.filter_cons_of_neg (by simp [h0])]
      exact ih acc
    · rw [List.map_cons, List.filter_cons_of_pos (by simp [h0]), List.foldl_cons]
      by_cases h1 : pyStrip email ∈ acc
      · rw [if_neg (by simp [h1]), if_pos h1]
        exact ih acc
      · rw [if_pos ⟨h0, h1⟩, if_neg h1]
        exact ih _

def mWs : Member := ⟨"p1", "g1", none, ["  alice@x  "], none⟩

/-- C8 counterexample: on a member whose only email carries surrounding
whitespace, the code strips it while the claim's candidate list keeps it
verbatim, so the two differ. -/
theorem candidate_emails_cex :
    _candidate_emails mWs none = ["alice@x"] ∧
    candidateEmailsSpec mWs none = ["  alice@x  "] ∧
    _candidate_emails mWs none ≠ candidateEmailsSpec mWs none := by
  exact ⟨rfl, rfl, by decide⟩

/-- C8 (amended): the candidate list is the member's emails followed by the
user's, each stripped of surrounding whitespace and dropped when empty after
stripping, de-duplicated preserving first-seen order (member entries before
user-only entries), with `primary_email` appended last when non-empty and
not already present. -/
theorem candidate_emails_amended_eq :
    ∀ (member : Member) (user : Option User),
      _candidate_emails member user = candidateEmailsAmended member user := by
  intro member user
  have key : addCandidates (match user with | some u => u.emails | none => [])
      (addCandidates member.emails []) =
      (((member.emails ++ (match user with | some u => u.emails | none => [])).map
        pyStrip).filter (fun e => decide (e ≠ ""))).foldl
        (fun a e => if e ∈ a then a else a ++ [e]) [] := by
    rw [addCandidates_eq, addCandidates_eq, List.map_append, List.filter_append,
      List.foldl_append]
  unfold _candidate_emails candidateEmailsAmended
  simp only [key]

/-! ## Scoring and selection (`select_best_email`) -/

/-- Python truthiness of an optional string: missing or empty is falsy. -/
def truthy (o : Option String) : Option String :=
  match o with
  | some s => if s = "" then none else some s
  | none => none

/-- The per-candidate `local_score`:
`_ratio(local, expected_local) if expected_local else 0.0`. -/
def localScoreOf (member : Member) (user : Option User) (email : String) : ℚ :=
  match truthy (_expected_local_part member user) with
  | some expected => _ratio (_normalize (_local_part email)) expected
  | none => 0

/-- The per-candidate `domain_score`: `1.0` on an exact (case-folded) match
of a truthy `domain_hint`, else `0.75` when a truthy `institution` occurs as
a substring of the normalized domain, else `0.0`. -/
def domainScoreOf (institution domain_hint : Option String) (email : String) : ℚ :=
  match truthy domain_hint with
  | some dh => if _normalize (_domain_part email) = _normalize dh then 1 else 0
  | none =>
    match truthy institution with
    | some inst => if inst.data <:+: (_normalize (_domain_part email)).data then 3/4 else 0
    | none => 0

/-- `total_score = 0.7 * local_score + 0.3 * domain_score`. -/
def totalScoreOf (member : Member) (user : Option User)
    (institution domain_hint : Option String) (email : String) : ℚ :=
  7/10 * localScoreOf member user email +
    3/10 * domainScoreOf institution domain_hint email

/-- Two-digit decimal padding for `fmt2`. -/
def pad2 (n : Nat) : String := if n < 10 then "0" ++ toString n else toString n

/-- Python's `f"{x:.2f}"` on the modelled rational scores: the value rounded
to hundredths and printed with two decimals. -/
def fmt2 (q : ℚ) : String :=
  (if round (q * 100) < 0 then "-" else "") ++
    toString ((round (q * 100)).natAbs / 100) ++ "." ++
    pad2 ((round (q * 100)).natAbs % 100)

/-- One entry of the `scores` list: `(total_score, email, detail)`. -/
def scoreEntry (member : Member) (user : Option User)
    (institution domain_hint : Option String) (email : String) : ℚ × String × String :=
  (totalScoreOf member user institution domain_hint email, email,
   "local=" ++ fmt2 (localScoreOf member user email) ++ ",domain=" ++
     fmt2 (domainScoreOf institution domain_hint email))

/-- The sort key `(score, email)` of `scores.sort`, as a boolean total
order on score entries. -/
def scoreLe (x y : ℚ × String × String) : Bool :=
  decide (x.1 < y.1 ∨ (x.1 = y.1 ∧ x.2.1 ≤ y.2.1))

/-- `select_best_email`: gather candidates, score each one, sort by
`(score, email)` ascending and take the last; without candidates return
`None` with reason `"no candidates"`.  (The sorted score list of a non-empty
candidate list is never empty, so the `none` branch of `getLast?` is dead;
Python indexes `scores[-1]` directly.) -/
def select_best_email (member : Member) (user : Option User)
    (institution domain_hint : Option String) : EmailSelection :=
  if _candidate_emails member user = [] then ⟨none, "no candidates", []⟩
  else
    match (((_candidate_emails member user).map
        (scoreEntry member user institution domain_hint)).mergeSort scoreLe).getLast? with
    | some best => ⟨some best.2.1,
        "score=" ++ fmt2 best.1 ++ " (" ++ best.2.2 ++ ")",
        _candidate_emails member user⟩
    | none => ⟨none, "no candidates", _candidate_emails member user⟩

theorem scoreLe_trans (x y z : ℚ × String × String) (hxy : scoreLe x y = true)
    (hyz : scoreLe y z = true) : scoreLe x z = true := by
  simp only [scoreLe, decide_eq_true_eq] at hxy hyz ⊢
  rcases hxy with h | ⟨he, hs⟩ <;> rcases hyz with h2 | ⟨he2, hs2⟩
  · exact Or.inl (lt_trans h h2)
  · exact Or.inl (he2 ▸ h)
  · exact Or.inl (he ▸ h2)
  · exact Or.inr ⟨he.trans he2, le_trans hs hs2⟩

theorem scoreLe_total (x y : ℚ × String × String) :
    (scoreLe x y || scoreLe y x) = true := by
  simp only [scoreLe, Bool.or_eq_true, decide_eq_true_eq]
  rcases lt_trichotomy x.1 y.1 with h | h | h
  · exact Or.inl (Or.inl h)
  · rcases le_total x.2.1 y.2.1 with hs | hs
    · exact Or.inl (Or.inr ⟨h, hs⟩)
    · exact Or.inr (Or.inr ⟨h.symm, hs⟩)
  · exact Or.inr (Or.inl h)

theorem pairwise_getLast_or {α : Type} (R : α → α → Prop) :
    ∀ l : List α, l.Pairwise R → ∀ bst, l.getLast? = some bst →
      ∀ x ∈ l, x = bst ∨ R x bst := by
  intro l
  induction l with
  | nil =>
    intro _ bst hl
    simp at hl
  | cons y ys ih =>
    intro hp bst hlast x hx
    cases ys with
    | nil =>
      simp only [List.getLast?_singleton, Option.some.injEq] at hlast
      rcases List.mem_singleton.mp hx with rfl
      exact Or.inl hlast
    | cons z zs =>
      rw [List.getLast?_cons_cons] at hlast
      rcases List.mem_cons.mp hx with rfl | hx2
      · have hb : bst ∈ z :: zs := List.mem_of_mem_getLast? hlast
        exact Or.inr ((List.pairwise_cons.mp hp).1 bst hb)
      · exact ih (List.pairwise_cons.mp hp).2 bst hlast x hx2

theorem select_best_email_some (member : Member) (user : Option User)
    (institution domain_hint : Option String)
    (h : _candidate_emails member user ≠ []) :
    ∃ best,
      (((_candidate_emails member user).map
        (scoreEntry member user institution domain_hint)).mergeSort scoreLe).getLast?
        = some best ∧
      select_best_email member user institution domain_hint =
        ⟨some best.2.1, "score=" ++ fmt2 best.1 ++ " (" ++ best.2.2 ++ ")",
          _candidate_emails member user⟩ := by
  have hperm := List.mergeSort_perm
    ((_candidate_emails member user).map (scoreEntry member user institution domain_hint))
    scoreLe
  have hne : (((_candidate_emails member user).map
      (scoreEntry member user institution domain_hint)).mergeSort scoreLe) ≠ [] := by
    intro h0
    have hlen := hperm.length_eq
    rw [h0] at hlen
    simp only [List.length_nil, List.length_map] at hlen
    exact h (List.length_eq_zero.mp hlen.symm)
  cases hlast : (((_candidate_emails member user).map
      (scoreEntry member user institution domain_hint)).mergeSort scoreLe).getLast? with
  | none => exact absurd (List.getLast?_eq_none_iff.mp hlast) hne
  | some best =>
    refine ⟨best, rfl, ?_⟩
    unfold select_best_email
    rw [if_neg h, hlast]

theorem score_reason_ne (a b c : String) : "score=" ++ a ++ b ++ c ≠ "no candidates" := by
  intro h
  have h2 := congrArg String.data h
  rw [String.data_append, String.data_append, String.data_append] at h2
  have hL : ((("score=".data ++ a.data) ++ b.data) ++ c.data).head? = some 's' := rfl
  rw [h2] at hL
  exact absurd hL (by decide)

/-- C2: `selected_email` is `None` exactly when the returned candidate list
is empty, the reason is `"no candidates"` exactly in that case, the returned
candidates are the gathered candidates, and with at least one candidate the
selected email is one of them. -/
theorem select_best_email_none_iff :
    ∀ (member : Member) (user : Option User) (institution domain_hint : Option String),
      ((select_best_email member user institution domain_hint).selected_email = none ↔
        (select_best_email member user institution domain_hint).candidates = []) ∧
      ((select_best_email member user institution domain_hint).reason = "no candidates" ↔
        (select_best_email member user institution domain_hint).candidates = []) ∧
      ((select_best_email member user institution domain_hint).candidates =
        _candidate_emails member user) ∧
      (∀ e, (select_best_email member user institution domain_hint).selected_email = some e →
        e ∈ (select_best_email member user institution domain_hint).candidates) := by
  intro member user institution domain_hint
  by_cases h : _candidate_emails member user = []
  · have hsel : select_best_email member user institution domain_hint =
        ⟨none, "no candidates", []⟩ := by
      unfold select_best_email
      rw [if_pos h]
    rw [hsel]
    refine ⟨by simp, by simp, h.symm, ?_⟩
    intro e he
    simp at he
  · obtain ⟨best, hbest, hsel⟩ := select_best_email_some member user institution domain_hint h
    rw [hsel]
    refine ⟨by simp [h], ⟨fun hr => absurd hr (score_reason_ne _ _ _), fun hc => absurd hc h⟩,
      rfl, ?_⟩
    intro e he
    simp only [Option.some.injEq] at he
    have hmem : best ∈ (_candidate_emails member user).map
        (scoreEntry member user institution domain_hint) :=
      (List.mergeSort_perm _ scoreLe).mem_iff.mp (List.mem_of_mem_getLast? hbest)
    obtain ⟨cb, hcb, hcbe⟩ := List.mem_map.mp hmem
    have hb2 : best.2.1 = cb := by
      rw [← hcbe]
      rfl
    show e ∈ _candidate_emails member user
    rw [← he, hb2]
    exact hcb

/-- C1: with at least one candidate, each candidate is scored
`0.7 · local_score + 0.3 · domain_score`, where the domain score is 1 when a
supplied (truthy) `domain_hint` equals the candidate's case-folded domain,
0.75 when no `domain_hint` is supplied but a supplied `institution` occurs
as a substring of the domain, and 0 otherwise; and the selected email is a
candidate that is maximal in the lexicographic order on
`(score, email string)`, so among equal scores the lexicographically
greatest email wins. -/
theorem select_best_email_lex_max (member : Member) (user : Option User)
    (institution domain_hint : Option String)
    (h : _candidate_emails member user ≠ []) :
    (∀ email, totalScoreOf member user institution domain_hint email =
      7/10 * localScoreOf member user email +
        3/10 * domainScoreOf institution domain_hint email) ∧
    (∀ email dh, truthy domain_hint = some dh →
      domainScoreOf institution domain_hint email =
        if _normalize (_domain_part email) = _normalize dh then 1 else 0) ∧
    (∀ email inst, truthy domain_hint = none → truthy institution = some inst →
      domainScoreOf institution domain_hint email =
        if inst.data <:+: (_normalize (_domain_part email)).data then 3/4 else 0) ∧
    (∀ email, truthy domain_hint = none → truthy institution = none →
      domainScoreOf institution domain_hint email = 0) ∧
    (∃ best, (select_best_email member user institution domain_hint).selected_email
        = some best ∧
      best ∈ _candidate_emails member user ∧
      ∀ c ∈ _candidate_emails member user,
        totalScoreOf member user institution domain_hint c <
            totalScoreOf member user institution domain_hint best ∨
          (totalScoreOf member user institution domain_hint c =
            totalScoreOf member user institution domain_hint best ∧ c ≤ best)) := by
  refine ⟨fun email => rfl, ?_, ?_, ?_, ?_⟩
  · intro email dh hdh
    unfold domainScoreOf
    rw [hdh]
  · intro email inst h1 h2
    unfold domainScoreOf
    rw [h1, h2]
  · intro email h1 h2
    unfold domainScoreOf
    rw [h1, h2]
  · obtain ⟨best, hbest, hsel⟩ := select_best_email_some member user institution domain_hint h
    have hmem : best ∈ (_candidate_emails member user).map
        (scoreEntry member user institution domain_hint) :=
      (List.mergeSort_perm _ scoreLe).mem_iff.mp (List.mem_of_mem_getLast? hbest)
    obtain ⟨cb, hcb, hcbe⟩ := List.mem_map.mp hmem
    have hb1 : best.1 = totalScoreOf member user institution domain_hint best.2.1 := by
      rw [← hcbe]
      rfl
    have hb2 : best.2.1 = cb := by
      rw [← hcbe]
      rfl
    refine ⟨best.2.1, by rw [hsel], by rw [hb2]; exact hcb, ?_⟩
    intro c hc
    have hcs : scoreEntry member user institution domain_hint c ∈
        ((_candidate_emails member user).map
          (scoreEntry member user institution domain_hint)).mergeSort scoreLe :=
      (List.mergeSort_perm _ scoreLe).mem_iff.mpr (List.mem_map_of_mem _ hc)
    have hpw : (((_candidate_emails member user).map
        (scoreEntry member user institution domain_hint)).mergeSort scoreLe).Pairwise
        (fun u v => scoreLe u v = true) :=
      List.sorted_mergeSort scoreLe_trans scoreLe_total _
    rcases pairwise_getLast_or _ _ hpw best hbest _ hcs with heq | hle
    · right
      rw [← heq]
      exact ⟨rfl, le_refl c⟩
    · simp only [scoreLe, decide_eq_true_eq] at hle
      rcases hle with h1 | ⟨h1, h2⟩
      · left
        rw [← hb1]
        exact h1
      · right
        exact ⟨by rw [← hb1]; exact h1, h2⟩

def mW1 : Member := ⟨"p1", "g1", none, ["a@b"], none⟩

/-- C1 witness: the theorem applied at a concrete member with one candidate
email, discharging the non-emptiness hypothesis by computation. -/
theorem select_best_email_lex_max_w :
    _candidate_emails mW1 none ≠ [] ∧
    (∃ best, (select_best_email mW1 none none none).selected_email = some best ∧
      best ∈ _candidate_emails mW1 none ∧
      ∀ c ∈ _candidate_emails mW1 none,
        totalScoreOf mW1 none none none c < totalScoreOf mW1 none none none best ∨
          (totalScoreOf mW1 none none none c = totalScoreOf mW1 none none none best ∧
            c ≤ best)) :=
  ⟨by decide, (select_best_email_lex_max mW1 none none none (by decide)).2.2.2.2⟩

end SimApps
